import Mathlib

/-
Verification development for the money formatting library (money.go).

Strings are modelled as lists of characters (`List Char`).  Go string
slicing `s[a:b]` is modelled by `goSlice`, which returns `none` exactly
when the slice bounds are out of range (a Go panic).  The monetary value
(a finite `float64` in Go) is modelled by its exact rational value,
represented as a numerator/positive-denominator pair (`Value`); every
finite floating-point number is such a rational.  `fmt.Sprintf` with the
`%.0f` and `%.2f` verbs is modelled by exact decimal rendering with
round-half-to-even, which is how Go formats floating-point values (Go
prints the sign of the value, including negative zero, which for the
fractional part produced by `math.Modf` is the sign of the original
value; the model threads that sign explicitly).
-/

namespace Money

/-- The numeric amount passed to `New`: the exact rational value of a
finite `float64`, as numerator over positive denominator.  The pair is
not required to be in lowest terms; all operations are well defined
regardless. -/
structure Value where
  num : ℤ
  den : ℕ
  den_pos : 0 < den

/-- The decimal digit character for `d < 10` (ASCII `'0' + d`). -/
def digitChar (d : Nat) : Char := Char.ofNat (48 + d)

/-- Fuel-indexed decimal rendering of a natural number, most significant
digit first.  Structural recursion on the fuel so that the kernel can
evaluate it; `natDigits` supplies sufficient fuel. -/
def natDigitsAux : Nat → Nat → List Char
  | 0, _ => []
  | fuel + 1, n =>
    if n < 10 then [digitChar n]
    else natDigitsAux fuel (n / 10) ++ [digitChar (n % 10)]

/-- The decimal digit string of a natural number (no sign, no leading
zeros beyond a single "0"), as printed by Go's `%.0f` for an integral
non-negative float. -/
def natDigits (n : Nat) : List Char := natDigitsAux (n + 1) n

/-- Two-digit zero-padded rendering of `k < 100`, as printed by `%.2f`
for the two digits after the decimal point. -/
def pad2 (k : Nat) : List Char :=
  if k < 10 then ['0', digitChar k] else natDigits k

/-- The integer component produced by `math.Modf` (money.go line 110):
truncation of the value toward zero. -/
def ratTrunc (v : Value) : ℤ := v.num.tdiv v.den

/-- Numerator of the fractional component produced by `math.Modf`
(money.go line 110): the fractional part is `fracNum v / v.den`, with
the sign of the value and absolute value `< 1`. -/
def fracNum (v : Value) : ℤ := v.num.tmod v.den

/-- Round the rational `a / b` (with `b > 0`) to the nearest integer,
ties to even: the rounding Go's `fmt` applies when formatting a
floating-point value with `%.2f`. -/
def roundHE (a b : ℤ) : ℤ :=
  let fl := a / b
  let r := a % b
  if 2 * r < b then fl
  else if b < 2 * r then fl + 1
  else if fl % 2 = 0 then fl else fl + 1

/-- The fractional component of the value, scaled by 100 and rounded to
an integer as Go's `%.2f` rounds it (signed). -/
def cent (v : Value) : ℤ := roundHE (100 * fracNum v) v.den

/-- `splitValue` (money.go lines 109-116).

    i, f := math.Modf(val)
    integer = fmt.Sprintf("%.0f", i)
    fractional = fmt.Sprintf("%.2f", f)[2:]

`%.0f` prints the integer component: a minus sign when the value is
negative (Go's `math.Modf` preserves the sign of `val`, so `i` is the
float `-0.0` for small negative values and `%.0f` prints `-0`), then the
decimal digits of its absolute value.  `%.2f` prints the fractional
component the same way with exactly two digits after the decimal point,
rounding half to even; the Go code then drops the first two bytes of
that rendering (the `[2:]` slice, always in range because `%.2f` output
has at least four bytes). -/
def splitValue (v : Value) : List Char × List Char :=
  let sign : List Char := if v.num < 0 then ['-'] else []
  let n : Nat := (cent v).natAbs
  (sign ++ natDigits (ratTrunc v).natAbs,
   (sign ++ natDigits (n / 100) ++ '.' :: pad2 (n % 100)).drop 2)

/-- Go string slicing `value[a:b]`: `none` models the out-of-range
panic. -/
def goSlice (value : List Char) (a b : Nat) : Option (List Char) :=
  if a ≤ b ∧ b ≤ value.length then some ((value.drop a).take (b - a)) else none

/-- `strings.Join` (money.go line 106): the groups joined by the
separator. -/
def joinSep (separator : List Char) : List (List Char) → List Char
  | [] => []
  | [g] => g
  | g :: g2 :: gs => g ++ separator ++ joinSep separator (g2 :: gs)

/-- The body of the loop in `separateThousands` (money.go lines 98-104):
the group stored at index `i`, where `m` is the length of the leading
remainder group.  Note the source slices `value[i : i+3]` with `i` the
group index. -/
def groupAt (value : List Char) (m i : Nat) : Option (List Char) :=
  if i = 0 ∧ 0 < m then goSlice value i (i + m) else goSlice value i (i + 3)

/-- The loop of `separateThousands`, filling the slice `r` for the index
list `[0, ..., s-1]`; `none` if any slice operation panics. -/
def buildGroups (value : List Char) (m : Nat) : List Nat → Option (List (List Char))
  | [] => some []
  | i :: is => do
    let g ← groupAt value m i
    let gs ← buildGroups value m is
    some (g :: gs)

/-- `separateThousands` (money.go lines 84-107).  `math.Mod(len, 3)` on
a float is exact for these magnitudes and equals `len % 3`. -/
def separateThousands (value separator : List Char) : Option (List Char) :=
  let s0 := value.length / 3
  let m := value.length % 3
  let s := if 0 < m then s0 + 1 else s0
  if s = 0 then some value
  else (buildGroups value m (List.range s)).map (joinSep separator)

/-- Modelled from the spec: the currency record (spec §3).  The
`currencies` table itself is not part of the given source (money.go only
consumes it as `map[string]interface{}` values); the fields are the ones
the spec lists and money.go reads: `iso_code`, `symbol`, nullable
`subunit`, `symbol_first`, `thousands_separator`, `decimal_mark`. -/
structure Currency where
  iso_code : List Char
  symbol : List Char
  subunit : Option (List Char)
  symbol_first : Bool
  thousands_separator : List Char
  decimal_mark : List Char

/-- Modelled from the spec: a caller-supplied option set (spec §3).  The
source's `Options` type, `defaults()` and `override` are not in the
given source file; per the spec, each recognized key may be supplied or
left unset, so each field is an `Option`. -/
structure Options where
  currency : Option (List Char) := none
  with_cents : Option Bool := none
  with_currency : Option Bool := none
  with_symbol : Option Bool := none
  with_symbol_space : Option Bool := none
  with_thousands_separator : Option Bool := none

/-- A fully resolved option set: every recognized key has a value. -/
structure ResolvedOptions where
  currency : List Char
  with_cents : Bool
  with_currency : Bool
  with_symbol : Bool
  with_symbol_space : Bool
  with_thousands_separator : Bool

/-- Modelled from the spec: the default options (spec §3 and the
money.go package doc comment, lines 5-14). -/
def defaults : ResolvedOptions :=
  { currency := "usd".data
    with_cents := true
    with_currency := false
    with_symbol := true
    with_symbol_space := false
    with_thousands_separator := true }

/-- Modelled from the spec: caller-supplied options override the
defaults key by key; unspecified keys retain their defaults (spec §3). -/
def override (d : ResolvedOptions) (o : Options) : ResolvedOptions :=
  { currency := o.currency.getD d.currency
    with_cents := o.with_cents.getD d.with_cents
    with_currency := o.with_currency.getD d.with_currency
    with_symbol := o.with_symbol.getD d.with_symbol
    with_symbol_space := o.with_symbol_space.getD d.with_symbol_space
    with_thousands_separator := o.with_thousands_separator.getD d.with_thousands_separator }

/-- Option resolution in `New` (money.go lines 37-41): the defaults,
overridden by the first supplied option set if any. -/
def resolveOptions : List Options → ResolvedOptions
  | [] => defaults
  | o :: _ => override defaults o

/-- Modelled from the spec: the USD row of the currency table (symbol
`$`, symbol first, comma thousands separator, dot decimal mark, cent
subunit), as exercised by the package doc examples. -/
def usd : Currency :=
  { iso_code := "USD".data
    symbol := "$".data
    subunit := some "Cent".data
    symbol_first := true
    thousands_separator := ",".data
    decimal_mark := ".".data }

/-- Modelled from the spec: the EUR row of the currency table; the
package doc example `New(10, Options{"currency": "eur"})` yields
`"€10.00"`, so the symbol is `€`, placed first, with dot decimal
mark. -/
def eur : Currency :=
  { iso_code := "EUR".data
    symbol := "€".data
    subunit := some "Cent".data
    symbol_first := true
    thousands_separator := ",".data
    decimal_mark := ".".data }

/-- Modelled from the spec: a zero-decimal currency row (spec §3: a
`null` subunit marks a currency with no fractional subunit, e.g. JPY). -/
def jpy : Currency :=
  { iso_code := "JPY".data
    symbol := "¥".data
    subunit := none
    symbol_first := true
    thousands_separator := ",".data
    decimal_mark := ".".data }

/-- Modelled from the spec: the static currency table, keyed by currency
code (spec §3); the rows above are the ones the spec and the package doc
document.  An unknown code has no row (the source's unguarded map lookup
followed by a type assertion panics; spec §7 calls this undefined
behavior). -/
def currencies (code : List Char) : Option Currency :=
  if code = "usd".data then some usd
  else if code = "eur".data then some eur
  else if code = "jpy".data then some jpy
  else none

/-- `addSymbol` (money.go lines 68-82). -/
def addSymbol (result : List Char) (currency : Currency) (options : ResolvedOptions) : List Char :=
  let space : List Char := if options.with_symbol_space then [' '] else []
  if currency.symbol_first then currency.symbol ++ space ++ result
  else result ++ space ++ currency.symbol

/-- The body of `New` after option resolution and currency lookup
(money.go lines 45-65), parametrized by the currency record.  A `none`
result propagates a Go panic from a slice operation. -/
def newC (currency : Currency) (v : Value) (options : ResolvedOptions) : Option (List Char) :=
  match (if options.with_thousands_separator then
      separateThousands (splitValue v).1 currency.thousands_separator
    else some (splitValue v).1) with
  | none => none
  | some r1 =>
    let r2 :=
      if options.with_cents && currency.subunit.isSome then
        r1 ++ currency.decimal_mark ++ (splitValue v).2
      else r1
    let r3 := if options.with_symbol then addSymbol r2 currency options else r2
    if options.with_currency then some (r3 ++ ' ' :: currency.iso_code) else some r3

/-- `New` (money.go lines 36-66): resolve options, look up the currency
record, and assemble the formatted string.  `none` models a panic
(unknown currency code, or an out-of-range slice). -/
def New (v : Value) (opts : List Options) : Option (List Char) :=
  match currencies (resolveOptions opts).currency with
  | none => none
  | some currency => newC currency v (resolveOptions opts)

/-- Strip every occurrence of the (single-character) separator from a
grouped digit string, for stating the grouping idempotence property. -/
def stripSep (separator s : List Char) : List Char :=
  s.filter (fun ch => !separator.contains ch)

/-- The value `0`. -/
def val0 : Value := ⟨0, 1, Nat.one_pos⟩

/-- The value `10`. -/
def val10 : Value := ⟨10, 1, Nat.one_pos⟩

/-- The value `0.999`. -/
def val0999 : Value := ⟨999, 1000, by norm_num⟩

/-- The value `-0.5`. -/
def valNegHalf : Value := ⟨-1, 2, by norm_num⟩

/-- A resolved option set with the symbol space enabled, for witnesses. -/
def spaceOpts : ResolvedOptions := { defaults with with_symbol_space := true }

/-- A resolved option set with the ISO code enabled, for witnesses. -/
def isoOpts : ResolvedOptions := { defaults with with_currency := true }

/-! ### Helper lemmas -/

theorem digitChar_isDigit {d : Nat} (h : d < 10) : (digitChar d).isDigit = true := by
  interval_cases d <;> decide

theorem digitChar_ne_dot {d : Nat} (h : d < 10) : digitChar d ≠ '.' := by
  interval_cases d <;> decide

theorem natDigitsAux_chars {fuel n : Nat} {c : Char} (hc : c ∈ natDigitsAux fuel n) :
    ∃ d, d < 10 ∧ c = digitChar d := by
  induction fuel generalizing n with
  | zero => simp [natDigitsAux] at hc
  | succ f ih =>
    rw [natDigitsAux] at hc
    by_cases h : n < 10
    · rw [if_pos h] at hc
      simp at hc
      exact ⟨n, h, hc⟩
    · rw [if_neg h] at hc
      rcases List.mem_append.mp hc with hc' | hc'
      · exact ih hc'
      · simp at hc'
        exact ⟨n % 10, Nat.mod_lt _ (by omega), hc'⟩

theorem natDigits_chars {n : Nat} {c : Char} (hc : c ∈ natDigits n) :
    ∃ d, d < 10 ∧ c = digitChar d := natDigitsAux_chars hc

theorem natDigits_of_lt_ten {n : Nat} (h : n < 10) : natDigits n = [digitChar n] := by
  rw [natDigits, natDigitsAux, if_pos h]

theorem natDigits_of_lt_hundred {n : Nat} (h10 : 10 ≤ n) (h : n < 100) :
    natDigits n = [digitChar (n / 10), digitChar (n % 10)] := by
  obtain ⟨f, rfl⟩ : ∃ f, n = f + 1 := ⟨n - 1, by omega⟩
  have h1 : ¬(f + 1 < 10) := by omega
  have h2 : (f + 1) / 10 < 10 := by omega
  obtain ⟨g, hg⟩ : ∃ g, f = g + 1 := ⟨f - 1, by omega⟩
  rw [natDigits, natDigitsAux, if_neg h1, hg, natDigitsAux, if_pos (hg ▸ h2)]
  rfl

theorem pad2_eq {k : Nat} (h : k < 100) :
    pad2 k = [digitChar (k / 10), digitChar (k % 10)] := by
  rw [pad2]
  by_cases h10 : k < 10
  · rw [if_pos h10, Nat.div_eq_of_lt h10, Nat.mod_eq_of_lt h10]
    rfl
  · rw [if_neg h10, natDigits_of_lt_hundred (by omega) h]

theorem pad2_chars {k : Nat} (h : k < 100) {c : Char} (hc : c ∈ pad2 k) :
    c.isDigit = true := by
  rw [pad2_eq h] at hc
  simp at hc
  rcases hc with rfl | rfl
  · exact digitChar_isDigit (by omega)
  · exact digitChar_isDigit (by omega)

theorem roundHE_le {a b c : ℤ} (hb : 0 < b) (h : a < c * b) : roundHE a b ≤ c := by
  have h1 : a / b < c := (Int.ediv_lt_iff_lt_mul hb).mpr h
  rw [roundHE]
  split_ifs <;> omega

theorem roundHE_ge {a b c : ℤ} (hb : 0 < b) (h : c * b ≤ a) : c ≤ roundHE a b := by
  have h1 : c ≤ a / b := (Int.le_ediv_iff_mul_le hb).mpr h
  rw [roundHE]
  split_ifs <;> omega

theorem roundHE_nonpos {a b : ℤ} (hb : 0 < b) (ha : a < 0) : roundHE a b ≤ 0 := by
  have h1 : a / b < 0 := Int.ediv_neg' ha hb
  rw [roundHE]
  split_ifs <;> omega

theorem den_pos_int (v : Value) : (0 : ℤ) < v.den := by
  exact_mod_cast v.den_pos

theorem fracNum_lt_den (v : Value) : fracNum v < v.den :=
  Int.tmod_lt_of_pos _ (den_pos_int v)

theorem fracNum_nonneg {v : Value} (h : 0 ≤ v.num) : 0 ≤ fracNum v :=
  Int.tmod_nonneg _ h

theorem fracNum_neg_bounds {v : Value} (hneg : v.num < 0)
    (hnint : ¬((v.den : ℤ) ∣ v.num)) :
    -(v.den : ℤ) < fracNum v ∧ fracNum v < 0 := by
  obtain ⟨m, hm⟩ := Int.eq_negSucc_of_lt_zero hneg
  have he : fracNum v = -Int.ofNat ((m + 1) % v.den) := by
    rw [fracNum, hm]
    rfl
  have hlt : (m + 1) % v.den < v.den := Nat.mod_lt _ v.den_pos
  have hne : fracNum v ≠ 0 := fun h0 => hnint (Int.dvd_iff_tmod_eq_zero.mpr h0)
  rw [he] at hne ⊢
  simp only [Int.ofNat_eq_natCast] at hne ⊢
  omega

theorem cent_nonneg_bounds {v : Value} (h : 0 ≤ v.num) :
    0 ≤ cent v ∧ cent v ≤ 100 := by
  have h1 := fracNum_nonneg h
  have h2 := fracNum_lt_den v
  have hd := den_pos_int v
  constructor
  · exact roundHE_ge hd (by omega)
  · exact roundHE_le hd (by omega)

theorem cent_neg_bounds {v : Value} (hneg : v.num < 0)
    (hnint : ¬((v.den : ℤ) ∣ v.num)) :
    -100 ≤ cent v ∧ cent v ≤ 0 := by
  obtain ⟨h1, h2⟩ := fracNum_neg_bounds hneg hnint
  have hd := den_pos_int v
  constructor
  · exact roundHE_ge hd (by omega)
  · exact roundHE_nonpos hd (by omega)

theorem goSlice_isSome {value : List Char} {a b : Nat} (h1 : a ≤ b)
    (h2 : b ≤ value.length) : (goSlice value a b).isSome = true := by
  rw [goSlice, if_pos ⟨h1, h2⟩]
  rfl

theorem goSlice_subset {value : List Char} {a b : Nat} {g : List Char}
    (hg : goSlice value a b = some g) : ∀ ch ∈ g, ch ∈ value := by
  rw [goSlice] at hg
  split_ifs at hg
  · intro ch hch
    cases hg
    exact (List.drop_sublist a value).subset (List.mem_of_mem_take hch)

theorem buildGroups_isSome {value : List Char} {m : Nat} {is : List Nat}
    (h : ∀ i ∈ is, (groupAt value m i).isSome = true) :
    (buildGroups value m is).isSome = true := by
  induction is with
  | nil => rfl
  | cons i is ih =>
    obtain ⟨g, hg⟩ := Option.isSome_iff_exists.mp (h i (by simp))
    obtain ⟨gs, hgs⟩ := Option.isSome_iff_exists.mp (ih fun j hj => h j (by simp [hj]))
    simp [buildGroups, hg, hgs]

theorem buildGroups_subset {value : List Char} {m : Nat} {is : List Nat}
    {gs : List (List Char)} (h : buildGroups value m is = some gs) :
    ∀ g ∈ gs, ∀ ch ∈ g, ch ∈ value := by
  induction is generalizing gs with
  | nil =>
    cases h
    simp
  | cons i is ih =>
    rw [buildGroups] at h
    cases hg : groupAt value m i with
    | none => rw [hg] at h; cases h
    | some g0 =>
      rw [hg] at h
      cases hgs : buildGroups value m is with
      | none => rw [hgs] at h; cases h
      | some gs0 =>
        rw [hgs] at h
        cases h
        intro g hgmem
        rcases List.mem_cons.mp hgmem with rfl | hmem
        · rw [groupAt] at hg
          split_ifs at hg <;> exact goSlice_subset hg
        · exact ih hgs g hmem

theorem joinSep_subset {separator : List Char} {gs : List (List Char)} {ch : Char}
    (h : ch ∈ joinSep separator gs) : ch ∈ separator ∨ ∃ g ∈ gs, ch ∈ g := by
  induction gs with
  | nil => simp [joinSep] at h
  | cons g gs ih =>
    cases gs with
    | nil =>
      right
      exact ⟨g, by simp, h⟩
    | cons g2 gs2 =>
      rw [joinSep] at h
      rcases List.mem_append.mp h with h' | h'
      · rcases List.mem_append.mp h' with h'' | h''
        · exact Or.inr ⟨g, by simp, h''⟩
        · exact Or.inl h''
      · rcases ih h' with h'' | ⟨g', hg', hch⟩
        · exact Or.inl h''
        · exact Or.inr ⟨g', by simp [hg'], hch⟩

theorem separateThousands_isSome (value separator : List Char) :
    (separateThousands value separator).isSome = true := by
  simp only [separateThousands]
  have hdm : 3 * (value.length / 3) + value.length % 3 = value.length :=
    Nat.div_add_mod _ 3
  have hm3 : value.length % 3 < 3 := Nat.mod_lt _ (by omega)
  by_cases hs : (if 0 < value.length % 3 then value.length / 3 + 1 else value.length / 3) = 0
  · rw [if_pos hs]
    rfl
  · rw [if_neg hs]
    have hb : (buildGroups value (value.length % 3)
        (List.range (if 0 < value.length % 3 then value.length / 3 + 1
          else value.length / 3))).isSome = true := by
      apply buildGroups_isSome
      intro i hi
      rw [List.mem_range] at hi
      rw [groupAt]
      by_cases h0 : i = 0 ∧ 0 < value.length % 3
      · rw [if_pos h0]
        exact goSlice_isSome (by omega) (by omega)
      · rw [if_neg h0]
        apply goSlice_isSome (by omega)
        by_cases hmp : 0 < value.length % 3
        · rw [if_pos hmp] at hi
          have : i ≠ 0 := fun h' => h0 ⟨h', hmp⟩
          omega
        · rw [if_neg hmp] at hi
          omega
    obtain ⟨gs, hgs⟩ := Option.isSome_iff_exists.mp hb
    rw [hgs]
    rfl

theorem separateThousands_subset {value separator st : List Char}
    (h : separateThousands value separator = some st) :
    ∀ ch ∈ st, ch ∈ value ∨ ch ∈ separator := by
  simp only [separateThousands] at h
  by_cases hs : (if 0 < value.length % 3 then value.length / 3 + 1
      else value.length / 3) = 0
  · rw [if_pos hs] at h
    injection h with h'
    subst h'
    exact fun ch hch => Or.inl hch
  · rw [if_neg hs] at h
    cases hgs : buildGroups value (value.length % 3)
        (List.range (if 0 < value.length % 3 then value.length / 3 + 1
          else value.length / 3)) with
    | none => rw [hgs] at h; cases h
    | some gs =>
      rw [hgs, Option.map_some'] at h
      injection h with h'
      subst h'
      intro ch hch
      rcases joinSep_subset hch with h' | ⟨g, hg, hchg⟩
      · exact Or.inr h'
      · exact Or.inl (buildGroups_subset hgs g hg ch hchg)

theorem splitValue_fst_chars (v : Value) :
    ∀ ch ∈ (splitValue v).1, ch = '-' ∨ ch.isDigit = true := by
  simp only [splitValue]
  intro ch hch
  rcases List.mem_append.mp hch with h' | h'
  · split_ifs at h'
    · simp at h'
      exact Or.inl h'
    · simp at h'
  · obtain ⟨d, hd, rfl⟩ := natDigits_chars h'
    exact Or.inr (digitChar_isDigit hd)

theorem splitValue_snd_nonneg {v : Value} (h : 0 ≤ v.num) :
    (splitValue v).2 = pad2 ((cent v).natAbs % 100) := by
  obtain ⟨hc0, hc1⟩ := cent_nonneg_bounds h
  have hsign : ¬(v.num < 0) := by omega
  have hdiv : (cent v).natAbs / 100 < 10 := by omega
  simp only [splitValue, if_neg hsign, natDigits_of_lt_ten hdiv]
  rfl

theorem splitValue_snd_neg {v : Value} (hneg : v.num < 0)
    (hnint : ¬((v.den : ℤ) ∣ v.num)) :
    (splitValue v).2 = '.' :: pad2 ((cent v).natAbs % 100) := by
  obtain ⟨hc0, hc1⟩ := cent_neg_bounds hneg hnint
  have hdiv : (cent v).natAbs / 100 < 10 := by omega
  simp only [splitValue, if_pos hneg, natDigits_of_lt_ten hdiv]
  rfl

theorem newC_isSome (c : Currency) (v : Value) (o : ResolvedOptions) :
    (newC c v o).isSome = true := by
  have hx : (if o.with_thousands_separator then
      separateThousands (splitValue v).1 c.thousands_separator
    else some (splitValue v).1).isSome = true := by
    split
    · exact separateThousands_isSome _ _
    · rfl
  obtain ⟨r1, hr1⟩ := Option.isSome_iff_exists.mp hx
  simp only [newC]
  rw [hr1]
  dsimp only
  split <;> rfl

theorem newC_usd_defaults (v : Value) {st : List Char}
    (hst : separateThousands (splitValue v).1 usd.thousands_separator = some st) :
    newC usd v defaults = some ('$' :: (st ++ '.' :: (splitValue v).2)) := by
  simp only [newC, defaults]
  rw [hst]
  simp [usd, addSymbol, defaults]

theorem isDigit_ne_dot {ch : Char} (h : ch.isDigit = true) : ch ≠ '.' := by
  intro h'
  subst h'
  exact absurd h (by decide)

theorem addSymbol_subset {r : List Char} {c : Currency} {o : ResolvedOptions}
    {ch : Char} (h : ch ∈ addSymbol r c o) : ch ∈ c.symbol ∨ ch = ' ' ∨ ch ∈ r := by
  rw [addSymbol] at h
  by_cases hsp : o.with_symbol_space = true <;>
    by_cases hsf : c.symbol_first = true <;>
      simp [hsp, hsf] at h <;> tauto

theorem newC_jpy_chars (v : Value) (o : ResolvedOptions) :
    ∀ ch ∈ (newC jpy v o).getD [],
      ch ∈ jpy.symbol ∨ ch ∈ jpy.iso_code ∨ ch ∈ jpy.thousands_separator ∨
      ch = ' ' ∨ ch = '-' ∨ ch.isDigit = true := by
  intro ch hch
  cases hx : (if o.with_thousands_separator then
      separateThousands (splitValue v).1 jpy.thousands_separator
    else some (splitValue v).1) with
  | none =>
    simp only [newC] at hch
    rw [hx] at hch
    simp at hch
  | some r1 =>
    have hr1 : ∀ x ∈ r1, x ∈ (splitValue v).1 ∨ x ∈ jpy.thousands_separator := by
      split_ifs at hx
      · exact separateThousands_subset hx
      · injection hx with hx'
        subst hx'
        exact fun x hx' => Or.inl hx'
    have hfin : ∀ x ∈ r1, x ∈ jpy.thousands_separator ∨ x = '-' ∨ x.isDigit = true := by
      intro x hx'
      rcases hr1 x hx' with h' | h'
      · rcases splitValue_fst_chars v x h' with h'' | h'' <;> tauto
      · exact Or.inl h'
    simp only [newC] at hch
    rw [hx] at hch
    have hsub : (o.with_cents && jpy.subunit.isSome) = false := by
      simp [jpy]
    simp only [hsub] at hch
    by_cases hcur : o.with_currency = true <;>
      by_cases hsym : o.with_symbol = true <;>
        simp [hcur, hsym] at hch
    · rcases hch with hch | hch
      · rcases addSymbol_subset hch with h' | h' | h' <;> [tauto; tauto; skip]
        rcases hfin _ h' with h'' | h'' <;> tauto
      · tauto
    · rcases hch with hch | hch
      · rcases hfin _ hch with h' | h' <;> tauto
      · tauto
    · rcases addSymbol_subset hch with h' | h' | h' <;> [tauto; tauto; skip]
      rcases hfin _ h' with h'' | h'' <;> tauto
    · rcases hfin _ hch with h' | h' <;> tauto

theorem jpy_chars_ne_dot {ch : Char}
    (h : ch ∈ jpy.symbol ∨ ch ∈ jpy.iso_code ∨ ch ∈ jpy.thousands_separator ∨
      ch = ' ' ∨ ch = '-' ∨ ch.isDigit = true) : ch ≠ '.' := by
  rcases h with h | h | h | h | h | h
  · rw [show jpy.symbol = ['¥'] from rfl] at h
    simp at h
    subst h
    decide
  · rw [show jpy.iso_code = ['J', 'P', 'Y'] from rfl] at h
    simp at h
    rcases h with h | h | h <;> (subst h; decide)
  · rw [show jpy.thousands_separator = [','] from rfl] at h
    simp at h
    subst h
    decide
  · subst h
    decide
  · subst h
    decide
  · exact isDigit_ne_dot h

/-! ### The claims -/

/-- C1: the claim "New(0.999) with default options returns \"$1.00\""
fails on the code.  At input `0.999` the fractional component rounds to
`"1.00"` under `%.2f`, the slice `[2:]` drops the two leading bytes
(`"1."`) including the carry digit, and the integer part is formatted
independently as `"0"`: `splitValue` returns `("0", "00")` and `New`
returns `"$0.00"`, not `"$1.00"`.  The carry is NOT propagated. -/
theorem claim_C1 :
    splitValue val0999 = ("0".data, "00".data) ∧
    New val0999 [] = some "$0.00".data ∧
    New val0999 [] ≠ some "$1.00".data :=
  ⟨by decide, by decide, by decide⟩

/-- C2: the claim fails on the code.  `separateThousands` slices every
group after the first at `value[i : i+3]` with `i` the group index
rather than a running offset, so on `"1234567"` it returns
`"1,234,345"` (digits garbled and duplicated), not `"1,234,567"`. -/
theorem claim_C2 :
    separateThousands "1234567".data ",".data = some "1,234,345".data ∧
    separateThousands "1234567".data ",".data ≠ some "1,234,567".data :=
  ⟨by decide, by decide⟩

/-- C3: the claim fails on the code.  Stripping the separators from the
correctly grouped string `"1,234,567"` gives `"1234567"`, and regrouping
that with the same separator yields `"1,234,345"`, not the original
string: grouping is not idempotent because of the slicing bug in
`separateThousands`. -/
theorem claim_C3 :
    stripSep ",".data "1,234,567".data = "1234567".data ∧
    separateThousands (stripSep ",".data "1,234,567".data) ",".data
      = some "1,234,345".data ∧
    separateThousands (stripSep ",".data "1,234,567".data) ",".data
      ≠ some "1,234,567".data :=
  ⟨by decide, by decide, by decide⟩

/-- C4: for every currency record with a null subunit the decimal-mark
branch of `New` is skipped for both settings of `with_cents` (the output
is literally the same string), and for the zero-decimal currency `jpy`
every character of the output comes from the symbol, the ISO code, the
thousands separator, a space, a minus sign, or a decimal digit of the
integer part — in particular the decimal mark `'.'` never occurs, and no
fractional digits are shown. -/
theorem claim_C4 (c : Currency) (v : Value) (o : ResolvedOptions)
    (h : c.subunit = none) :
    newC c v o = newC c v { o with with_cents := false } ∧
    ∀ ch ∈ (newC jpy v o).getD [],
      (ch ∈ jpy.symbol ∨ ch ∈ jpy.iso_code ∨ ch ∈ jpy.thousands_separator ∨
        ch = ' ' ∨ ch = '-' ∨ ch.isDigit = true) ∧ ch ≠ '.' := by
  constructor
  · simp [newC, addSymbol, h]
  · intro ch hch
    have h' := newC_jpy_chars v o ch hch
    exact ⟨h', jpy_chars_ne_dot h'⟩

/-- C4 witness: the theorem applied at the zero-decimal currency `jpy`,
the value `10` and the default options. -/
theorem claim_C4_witness :
    jpy.subunit = none ∧
    (newC jpy val10 defaults = newC jpy val10 { defaults with with_cents := false } ∧
     ∀ ch ∈ (newC jpy val10 defaults).getD [],
       (ch ∈ jpy.symbol ∨ ch ∈ jpy.iso_code ∨ ch ∈ jpy.thousands_separator ∨
         ch = ' ' ∨ ch = '-' ∨ ch.isDigit = true) ∧ ch ≠ '.') :=
  ⟨rfl, claim_C4 jpy val10 defaults rfl⟩

/-- C5: caller-supplied options override the defaults key by key and
every unspecified key keeps its default (so a call with no options is
fully specified); `New(10)` with no options returns `"$10.00"` and
`New(10, {currency := "eur"})` returns `"€10.00"`. -/
theorem claim_C5 :
    New val10 [] = some "$10.00".data ∧
    New val10 [{ currency := some "eur".data }] = some "€10.00".data ∧
    resolveOptions [] = defaults ∧
    ∀ o : Options,
      (override defaults o).currency = o.currency.getD defaults.currency ∧
      (override defaults o).with_cents = o.with_cents.getD defaults.with_cents ∧
      (override defaults o).with_currency = o.with_currency.getD defaults.with_currency ∧
      (override defaults o).with_symbol = o.with_symbol.getD defaults.with_symbol ∧
      (override defaults o).with_symbol_space
        = o.with_symbol_space.getD defaults.with_symbol_space ∧
      (override defaults o).with_thousands_separator
        = o.with_thousands_separator.getD defaults.with_thousands_separator :=
  ⟨by decide, by decide, rfl, fun _ => ⟨rfl, rfl, rfl, rfl, rfl, rfl⟩⟩

/-- C6: for every value (every finite float is a rational with positive
denominator) and every list of option sets whose resolved currency code
is in the table, `New` returns a string: no slice operation is ever out
of range and no lookup fails. -/
theorem claim_C6 (v : Value) (opts : List Options)
    (h : (currencies (resolveOptions opts).currency).isSome = true) :
    (New v opts).isSome = true := by
  obtain ⟨c, hc⟩ := Option.isSome_iff_exists.mp h
  simp only [New]
  rw [hc]
  exact newC_isSome c v (resolveOptions opts)

/-- C6 witness: the theorem applied at the value `0` with no options. -/
theorem claim_C6_witness :
    (currencies (resolveOptions ([] : List Options)).currency).isSome = true ∧
    (New val0 ([] : List Options)).isSome = true :=
  ⟨by decide, claim_C6 val0 [] (by decide)⟩

/-- C7: when `with_symbol_space` is set, `addSymbol` inserts exactly one
space between symbol and amount on whichever side `symbol_first`
dictates; `New(10, {with_symbol_space: true})` returns `"$ 10.00"`. -/
theorem claim_C7 (amount : List Char) (c : Currency) (o : ResolvedOptions)
    (h : o.with_symbol_space = true) :
    addSymbol amount c o =
      (if c.symbol_first then c.symbol ++ ' ' :: amount
       else amount ++ ' ' :: c.symbol) ∧
    New val10 [{ with_symbol_space := some true }] = some "$ 10.00".data := by
  constructor
  · simp only [addSymbol, h]
    split_ifs <;> simp
  · decide

/-- C7 witness: the theorem applied at the amount `"10.00"`, the USD
record and the default options with the symbol space enabled. -/
theorem claim_C7_witness :
    spaceOpts.with_symbol_space = true ∧
    (addSymbol "10.00".data usd spaceOpts =
      (if usd.symbol_first then usd.symbol ++ ' ' :: "10.00".data
       else "10.00".data ++ ' ' :: usd.symbol) ∧
     New val10 [{ with_symbol_space := some true }] = some "$ 10.00".data) :=
  ⟨rfl, claim_C7 "10.00".data usd spaceOpts rfl⟩

/-- C8: when `with_currency` is set, the final assembly step appends
exactly one space and the currency's ISO code to the string composed by
the earlier steps; `New(10, {with_currency: true})` returns
`"$10.00 USD"`. -/
theorem claim_C8 (c : Currency) (v : Value) (o : ResolvedOptions)
    (h : o.with_currency = true) :
    newC c v o = (newC c v { o with with_currency := false }).map
      (fun s => s ++ ' ' :: c.iso_code) ∧
    New val10 [{ with_currency := some true }] = some "$10.00 USD".data := by
  constructor
  · cases hx : (if o.with_thousands_separator then
        separateThousands (splitValue v).1 c.thousands_separator
      else some (splitValue v).1) with
    | none =>
      simp only [newC]
      rw [hx]
      simp [addSymbol]
    | some r1 =>
      simp only [newC]
      rw [hx]
      simp [h, addSymbol]
  · decide

/-- C8 witness: the theorem applied at the USD record, the value `10`
and the default options with the ISO code enabled. -/
theorem claim_C8_witness :
    isoOpts.with_currency = true ∧
    (newC usd val10 isoOpts = (newC usd val10 { isoOpts with with_currency := false }).map
      (fun s => s ++ ' ' :: usd.iso_code) ∧
     New val10 [{ with_currency := some true }] = some "$10.00 USD".data) :=
  ⟨rfl, claim_C8 usd val10 isoOpts rfl⟩

/-- C9: for every non-negative value the fractional string returned by
`splitValue` consists of exactly two decimal digit characters. -/
theorem claim_C9 (v : Value) (h : 0 ≤ v.num) :
    (splitValue v).2.length = 2 ∧ ∀ ch ∈ (splitValue v).2, ch.isDigit = true := by
  have hk : (cent v).natAbs % 100 < 100 := Nat.mod_lt _ (by omega)
  constructor
  · rw [splitValue_snd_nonneg h, pad2_eq hk]
    rfl
  · rw [splitValue_snd_nonneg h]
    exact fun ch hch => pad2_chars hk hch

/-- C9 witness: the theorem applied at the value `10`. -/
theorem claim_C9_witness :
    0 ≤ val10.num ∧
    ((splitValue val10).2.length = 2 ∧
     ∀ ch ∈ (splitValue val10).2, ch.isDigit = true) :=
  ⟨by decide, claim_C9 val10 (by decide)⟩

/-- C10: for every negative non-integral value the fractional string
returned by `splitValue` has exactly three characters and begins with
`'.'` (the `%.2f` rendering of the negative fractional component begins
with `"-0."` or `"-1."` and only its first two characters are dropped),
and consequently the string returned by `New` with default options
contains the decimal mark immediately followed by a `'.'` character. -/
theorem claim_C10 (v : Value) (hneg : v.num < 0)
    (hnint : ¬((v.den : ℤ) ∣ v.num)) :
    (splitValue v).2.length = 3 ∧ (splitValue v).2.head? = some '.' ∧
    ∃ t u, New v [] = some (t ++ '.' :: '.' :: u) := by
  have hc := cent_neg_bounds hneg hnint
  have hk : (cent v).natAbs % 100 < 100 := Nat.mod_lt _ (by omega)
  have hsnd := splitValue_snd_neg hneg hnint
  refine ⟨?_, ?_, ?_⟩
  · rw [hsnd, pad2_eq hk]
    rfl
  · rw [hsnd]
    rfl
  · obtain ⟨st, hst⟩ := Option.isSome_iff_exists.mp
      (separateThousands_isSome (splitValue v).1 usd.thousands_separator)
    have hnew : New v [] = some ('$' :: (st ++ '.' :: (splitValue v).2)) := by
      simp only [New, resolveOptions]
      rw [show currencies defaults.currency = some usd from rfl]
      exact newC_usd_defaults v hst
    refine ⟨'$' :: st, pad2 ((cent v).natAbs % 100), ?_⟩
    rw [hnew, hsnd]
    simp

/-- C10 witness: the theorem applied at the value `-0.5`. -/
theorem claim_C10_witness :
    valNegHalf.num < 0 ∧ ¬((valNegHalf.den : ℤ) ∣ valNegHalf.num) ∧
    ((splitValue valNegHalf).2.length = 3 ∧
     (splitValue valNegHalf).2.head? = some '.' ∧
     ∃ t u, New valNegHalf [] = some (t ++ '.' :: '.' :: u)) :=
  ⟨by decide, by decide, claim_C10 valNegHalf (by decide) (by decide)⟩

end Money
